import Mathlib

/-!
Verification of the maze-game core (src/src/main.cpp).

The embedding models the `Cell`, `Maze` and `Player` classes and the
free functions of the source.  C++ `int` becomes `Int`; the raylib
random source `GetRandomValue` becomes an arbitrary stream of natural
draws mapped into the requested closed interval; wall-clock time
(`GetTime`, C++ `float`) becomes `ℚ`.  Raw 2D array accesses
`grid[y][x]` are embedded as bounds-checked accesses returning
`Except GenError`, so that an out-of-bounds access by the generator
would be an observable error; general recursion of the maze generator
is embedded with an explicit fuel parameter whose exhaustion is an
error, and fuel sufficiency is proved.
-/

/-- A maze cell: wall flag plus the generation-time visited flag
(class `Cell`, main.cpp lines 5-12). -/
structure Cell where
  isWall : Bool
  visited : Bool
deriving DecidableEq, Repr

/-- `Cell()` initialises a cell as a wall and unvisited. -/
instance : Inhabited Cell := ⟨⟨true, false⟩⟩

/-- The maze grid: a list of rows, entry `(x, y)` is `grid[y][x]`. -/
abbrev Grid := List (List Cell)

/-- Errors of the embedded generator: an out-of-bounds raw grid access,
or exhaustion of the recursion fuel. -/
inductive GenError where
  | outOfBounds : GenError
  | fuelExhausted : GenError
deriving DecidableEq, Repr

/-- Model of the raylib random source: an arbitrary stream of draws and
a position in the stream. -/
structure Rng where
  stream : Nat → Nat
  idx : Nat

/-- `GetRandomValue(lo, hi)`: the next draw, mapped into `[lo, hi]`. -/
def Rng.next (r : Rng) (lo hi : Nat) : Nat × Rng :=
  (lo + r.stream r.idx % (hi + 1 - lo), ⟨r.stream, r.idx + 1⟩)

/-- Total read of cell `(x, y)`; out-of-range coordinates yield the
default cell (a wall). -/
def cellAt (g : Grid) (x y : Int) : Cell :=
  if 0 ≤ x ∧ 0 ≤ y then
    (((g.get? y.toNat).bind fun row => row.get? x.toNat).getD default)
  else default

/-- Checked read of `grid[y][x]`: an out-of-range access is an error. -/
def gridGet (g : Grid) (x y : Int) : Except GenError Cell :=
  if 0 ≤ x ∧ 0 ≤ y then
    match (g.get? y.toNat).bind fun row => row.get? x.toNat with
    | some c => .ok c
    | none => .error .outOfBounds
  else .error .outOfBounds

/-- Checked write of `grid[y][x]`: an out-of-range access is an error. -/
def gridSet (g : Grid) (x y : Int) (c : Cell) : Except GenError Grid :=
  if 0 ≤ x ∧ 0 ≤ y then
    match g.get? y.toNat with
    | some row =>
      if x.toNat < row.length then
        .ok (g.set y.toNat (row.set x.toNat c))
      else .error .outOfBounds
    | none => .error .outOfBounds
  else .error .outOfBounds

/-- `Maze::isInsideGrid` (main.cpp lines 24-26). -/
def isInsideGrid (w h x y : Int) : Bool :=
  decide (0 ≤ x) && decide (x < w) && decide (0 ≤ y) && decide (y < h)

/-- The direction array `{{0,-1},{0,1},{-1,0},{1,0}}` (main.cpp line 35). -/
def dirsInit : List (Int × Int) := [(0, -1), (0, 1), (-1, 0), (1, 0)]

/-- Swap of two positions of the direction array (main.cpp lines 40-44);
positions out of range leave the list unchanged. -/
def swapList (l : List (Int × Int)) (i j : Nat) : List (Int × Int) :=
  match l.get? i, l.get? j with
  | some a, some b => (l.set i b).set j a
  | _, _ => l

/-- One iteration of the shuffling loop: draw `j = GetRandomValue(i, 3)`
and swap positions `i` and `j`. -/
def shuffleStep (st : List (Int × Int) × Rng) (i : Nat) : List (Int × Int) × Rng :=
  let d := st.2.next i 3
  (swapList st.1 i d.1, d.2)

/-- The direction-shuffling loop of `generateMazeRecursive`
(main.cpp lines 38-45), iterating `i = 0..3`. -/
def shuffleDirs (r : Rng) : List (Int × Int) × Rng :=
  [0, 1, 2, 3].foldl shuffleStep (dirsInit, r)

/-- The direction-exploration loop of `generateMazeRecursive`
(main.cpp lines 48-55): for each direction, if the cell two steps away
is inside the grid and unvisited, carve the intermediate cell and
recurse; the recursive call of the source is abstracted as `rec` so
that the recursion can be tied by structural descent on fuel. -/
def exploreDirs (rec : Grid → Rng → Int → Int → Except GenError (Grid × Rng))
    (w h x y : Int) : Grid → Rng → List (Int × Int) →
    Except GenError (Grid × Rng)
  | g, r, [] => .ok (g, r)
  | g, r, d :: rest =>
    let nx := x + d.1 * 2
    let ny := y + d.2 * 2
    if isInsideGrid w h nx ny then
      match gridGet g nx ny with
      | .error e => .error e
      | .ok c =>
        if c.visited then exploreDirs rec w h x y g r rest
        else
          match gridGet g (x + d.1) (y + d.2) with
          | .error e => .error e
          | .ok mc =>
            match gridSet g (x + d.1) (y + d.2) ⟨false, mc.visited⟩ with
            | .error e => .error e
            | .ok g2 =>
              match rec g2 r nx ny with
              | .error e => .error e
              | .ok gr => exploreDirs rec w h x y gr.1 gr.2 rest
    else exploreDirs rec w h x y g r rest

/-- `Maze::generateMazeRecursive` (main.cpp lines 29-56): mark the
current cell visited and remove its wall, shuffle the four directions,
then explore them in order.  `fuel` bounds the recursion depth; its
sufficiency is proved below. -/
def generateMazeRecursive (w h : Int) : Nat → Grid → Rng → Int → Int →
    Except GenError (Grid × Rng)
  | 0, _, _, _, _ => .error .fuelExhausted
  | fuel + 1, g, r, x, y =>
    match gridSet g x y ⟨false, true⟩ with
    | .error e => .error e
    | .ok g1 =>
      let sr := shuffleDirs r
      exploreDirs (generateMazeRecursive w h fuel) w h x y g1 sr.2 sr.1

/-- The freshly allocated grid of the `Maze` constructor
(main.cpp lines 62-66): all cells walls, all unvisited. -/
def freshGrid (w h : Int) : Grid :=
  List.replicate h.toNat (List.replicate w.toNat ⟨true, false⟩)

/-- Recursion fuel used by the embedding of `generateMaze`; proved
sufficient below. -/
def genFuel (w h : Int) : Nat := w.toNat * h.toNat + 1

/-- `Maze::generateMaze` (main.cpp lines 86-88): run the recursive
generation from `(1, 1)`. -/
def generateMaze (w h : Int) (r : Rng) : Except GenError (Grid × Rng) :=
  generateMazeRecursive w h (genFuel w h) (freshGrid w h) r 1 1

theorem generateMazeRecursive_succ (w h : Int) (fuel : Nat) (g : Grid)
    (r : Rng) (x y : Int) :
    generateMazeRecursive w h (fuel + 1) g r x y =
      match gridSet g x y ⟨false, true⟩ with
      | .error e => .error e
      | .ok g1 =>
        exploreDirs (generateMazeRecursive w h fuel) w h x y g1
          (shuffleDirs r).2 (shuffleDirs r).1 := rfl

/-- The `Maze` object: dimensions, grid and exit coordinates.  The
presentation-only members (`cellSize`, `mazeColor`, `exitTexture`) are
omitted; no claim concerns them. -/
structure Maze where
  width : Int
  height : Int
  grid : Grid
  exitX : Int
  exitY : Int
deriving Repr

/-- The `Maze` constructor (main.cpp lines 60-73): allocate the grid,
generate the maze, then force the exit cell `(width-2, height-2)` to be
a passage. -/
def mkMaze (w h : Int) (r : Rng) : Except GenError (Maze × Rng) :=
  match generateMaze w h r with
  | .error e => .error e
  | .ok (g, r1) =>
    match gridGet g (w - 2) (h - 2) with
    | .error e => .error e
    | .ok c =>
      match gridSet g (w - 2) (h - 2) ⟨false, c.visited⟩ with
      | .error e => .error e
      | .ok g2 =>
        .ok ({ width := w, height := h, grid := g2,
               exitX := w - 2, exitY := h - 2 }, r1)

/-- `Maze::isWall` (main.cpp lines 91-94): out-of-bounds coordinates
are walls, otherwise the stored flag. -/
def Maze.isWall (m : Maze) (x y : Int) : Bool :=
  if isInsideGrid m.width m.height x y then (cellAt m.grid x y).isWall
  else true

/-- `Maze::isExit` (main.cpp lines 113-115). -/
def Maze.isExit (m : Maze) (x y : Int) : Bool :=
  decide (x = m.exitX) && decide (y = m.exitY)

/-- The `Player` object (main.cpp lines 119-129): position and
move-throttling state. -/
structure Player where
  x : Int
  y : Int
  moveCooldown : ℚ
  lastMoveTime : ℚ
deriving DecidableEq, Repr

/-- The `Player` constructor: cooldown `0.2`, last move time `0`. -/
def Player.init (startX startY : Int) : Player :=
  { x := startX, y := startY, moveCooldown := 1/5, lastMoveTime := 0 }

/-- `Player::move` (main.cpp lines 132-143): if the cooldown has
elapsed, attempt the move, blocked by walls; the last-move timestamp is
updated whenever the cooldown had elapsed, accepted move or not. -/
def Player.move (p : Player) (dx dy : Int) (m : Maze) (currentTime : ℚ) :
    Player :=
  if p.moveCooldown ≤ currentTime - p.lastMoveTime then
    if m.isWall (p.x + dx) (p.y + dy) then
      { p with lastMoveTime := currentTime }
    else
      { x := p.x + dx, y := p.y + dy, moveCooldown := p.moveCooldown,
        lastMoveTime := currentTime }
  else p

/-- A sequence of movement attempts applied in order; each entry is a
direction and the time of the attempt (main loop, main.cpp lines 316-319). -/
def applyMoves (m : Maze) (p : Player) (ms : List (Int × Int × ℚ)) : Player :=
  ms.foldl (fun q mv => q.move mv.1 mv.2.1 m mv.2.2) p

/-! ### The direction shuffle (claim C9) -/

/-- The shuffle outcome as a function of the three effective draws: the
loop body for `i = 0,1,2` swaps position `i` with `i + draw`, and the
final iteration `i = 3` draws `GetRandomValue(3,3) = 3` and swaps
position `3` with itself. -/
def shuffleWith (a b c : Nat) : List (Int × Int) :=
  swapList (swapList (swapList (swapList dirsInit 0 a) 1 (1 + b)) 2 (2 + c)) 3 3

/-- All 24 outcomes of the canonical draws `j₀ ∈ [0,3]`, `j₁ ∈ [1,3]`,
`j₂ ∈ [2,3]` (with `j₃ = 3` forced), one entry per equally likely draw
sequence. -/
def allShuffles : List (List (Int × Int)) :=
  (List.range 4).flatMap fun a => (List.range 3).flatMap fun b =>
    (List.range 2).map fun c => shuffleWith a b c

theorem shuffleDirs_fst (r : Rng) :
    (shuffleDirs r).1 = shuffleWith (r.stream r.idx % 4)
      (r.stream (r.idx + 1) % 3) (r.stream (r.idx + 1 + 1) % 2) := by
  simp [shuffleDirs, shuffleStep, shuffleWith, Rng.next, List.foldl,
    Nat.mod_one]

theorem shuffleWith_perm : ∀ a < 4, ∀ b < 3, ∀ c < 2,
    (shuffleWith a b c).Perm dirsInit := by decide

theorem shuffleDirs_perm (r : Rng) : ((shuffleDirs r).1).Perm dirsInit := by
  rw [shuffleDirs_fst]
  exact shuffleWith_perm _ (Nat.mod_lt _ (by norm_num)) _
    (Nat.mod_lt _ (by norm_num)) _ (Nat.mod_lt _ (by norm_num))

theorem allShuffles_nodup : allShuffles.Nodup := by decide

theorem allShuffles_length : allShuffles.length = 24 := by decide

theorem mem_allShuffles_of_perm {l : List (Int × Int)} (hl : l.Perm dirsInit) :
    l ∈ allShuffles := by
  have hsub : allShuffles.toFinset ⊆ (dirsInit.permutations).toFinset := by
    intro s hs
    rw [List.mem_toFinset] at hs ⊢
    rw [List.mem_permutations]
    revert hs
    revert s
    decide
  have hcardS : allShuffles.toFinset.card = 24 := by
    rw [List.toFinset_card_of_nodup allShuffles_nodup, allShuffles_length]
  have hcardT : (dirsInit.permutations).toFinset.card ≤ 24 := by
    calc (dirsInit.permutations).toFinset.card
        ≤ dirsInit.permutations.length := List.toFinset_card_le _
      _ = 24 := by rw [List.length_permutations]; rfl
  have heq := Finset.eq_of_subset_of_card_le hsub (by omega)
  have : l ∈ (dirsInit.permutations).toFinset := by
    rw [List.mem_toFinset, List.mem_permutations]; exact hl
  rw [← heq, List.mem_toFinset] at this
  exact this

/-! ### Player movement (claims C5, C6) -/

theorem move_of_elapsed {p : Player} {t : ℚ} (h : p.moveCooldown ≤ t - p.lastMoveTime)
    (dx dy : Int) (m : Maze) :
    p.move dx dy m t =
      if m.isWall (p.x + dx) (p.y + dy) then { p with lastMoveTime := t }
      else { x := p.x + dx, y := p.y + dy, moveCooldown := p.moveCooldown,
             lastMoveTime := t } := by
  rw [Player.move, if_pos h]

/-- A concrete draw stream used by the witnesses. -/
def rng0 : Rng := ⟨fun _ => 0, 0⟩

theorem countP_eq_one_of_nodup_mem {α : Type} [DecidableEq α] {l : List α}
    {a : α} (hn : l.Nodup) (hm : a ∈ l) :
    l.countP (fun s => decide (s = a)) = 1 := by
  induction l with
  | nil => cases hm
  | cons b bs ih =>
    rw [List.nodup_cons] at hn
    rw [List.countP_cons]
    rcases List.mem_cons.1 hm with rfl | hmem
    · have : bs.countP (fun s => decide (s = a)) = 0 :=
        List.countP_eq_zero.2 fun s hs => by
          simp only [decide_eq_true_eq]
          rintro rfl; exact hn.1 hs
      simp [this]
    · have hba : ¬(b = a) := fun hba => hn.1 (hba ▸ hmem)
      rw [ih hn.2 hmem]
      simp [hba]

/-- C9: every sequence of bounded draws turns the direction array into a
permutation of the four orthogonal unit directions, and over the
uniformly distributed draws (24 equally likely draw sequences, listed in
`allShuffles`) every permutation of the four directions is produced by
exactly one of them, hence with equal probability 1/24. -/
theorem shuffle_is_uniform_permutation :
    (∀ r : Rng, ((shuffleDirs r).1).Perm dirsInit) ∧
    (∀ l : List (Int × Int), l.Perm dirsInit →
      allShuffles.countP (fun s => decide (s = l)) = 1) :=
  ⟨shuffleDirs_perm, fun _ hl =>
    countP_eq_one_of_nodup_mem allShuffles_nodup (mem_allShuffles_of_perm hl)⟩

theorem shuffle_is_uniform_permutation_witness :
    ((shuffleDirs rng0).1).Perm dirsInit ∧
    allShuffles.countP (fun s => decide (s = dirsInit)) = 1 :=
  ⟨shuffle_is_uniform_permutation.1 rng0,
   shuffle_is_uniform_permutation.2 dirsInit (List.Perm.refl dirsInit)⟩

/-- C4: for every constructed maze, `isWall` returns `true` at every
out-of-bounds coordinate and returns the stored wall flag at every
in-bounds coordinate. -/
theorem isWall_oob_true_inb_stored :
    ∀ (w h : Int) (r : Rng) (m : Maze) (r' : Rng),
      mkMaze w h r = .ok (m, r') →
      ∀ x y : Int,
        ((x < 0 ∨ m.width ≤ x ∨ y < 0 ∨ m.height ≤ y) → m.isWall x y = true) ∧
        (0 ≤ x → x < m.width → 0 ≤ y → y < m.height →
          m.isWall x y = (cellAt m.grid x y).isWall) := by
  intro w h r m r' _ x y
  constructor
  · intro hoob
    rw [Maze.isWall, if_neg]
    simp only [isInsideGrid, Bool.and_eq_true, decide_eq_true_eq]
    omega
  · intro h1 h2 h3 h4
    rw [Maze.isWall, if_pos]
    simp only [isInsideGrid, Bool.and_eq_true, decide_eq_true_eq]
    omega

theorem isWall_oob_true_inb_stored_witness :
    ∃ (m : Maze) (r' : Rng), mkMaze 3 3 rng0 = .ok (m, r') ∧
      m.isWall (-1) 0 = true :=
  ⟨_, _, rfl,
    (isWall_oob_true_inb_stored 3 3 rng0 _ _ rfl (-1) 0).1 (Or.inl (by decide))⟩

/-- C5: when the cooldown has elapsed and the candidate cell is a wall
(including out of bounds), the move leaves the position unchanged but
still resets the cooldown timer to the current time, so any immediately
following attempt within the cooldown window is rejected purely on
timing. -/
theorem move_into_wall_keeps_position_resets_timer :
    ∀ (p : Player) (dx dy : Int) (m : Maze) (t : ℚ),
      p.moveCooldown ≤ t - p.lastMoveTime →
      m.isWall (p.x + dx) (p.y + dy) = true →
      (p.move dx dy m t).x = p.x ∧ (p.move dx dy m t).y = p.y ∧
      (p.move dx dy m t).lastMoveTime = t ∧
      ∀ (t' : ℚ) (dx' dy' : Int), t' - t < p.moveCooldown →
        (p.move dx dy m t).move dx' dy' m t' = p.move dx dy m t := by
  intro p dx dy m t hcool hwall
  have hmv : p.move dx dy m t = { p with lastMoveTime := t } := by
    rw [move_of_elapsed hcool, if_pos hwall]
  refine ⟨by rw [hmv], by rw [hmv], by rw [hmv], fun t' dx' dy' hlt => ?_⟩
  rw [Player.move, if_neg]
  rw [hmv]
  simpa using not_le.mpr hlt

theorem move_into_wall_keeps_position_resets_timer_witness :
    (Player.init 0 0).moveCooldown ≤ (1 : ℚ) - (Player.init 0 0).lastMoveTime ∧
    (Maze.mk 0 0 [] 0 0).isWall ((Player.init 0 0).x + -1)
      ((Player.init 0 0).y + 0) = true ∧
    ((Player.init 0 0).move (-1) 0 (Maze.mk 0 0 [] 0 0) 1).x = 0 := by
  refine ⟨by norm_num [Player.init], by decide, ?_⟩
  exact (move_into_wall_keeps_position_resets_timer (Player.init 0 0) (-1) 0
    (Maze.mk 0 0 [] 0 0) 1 (by norm_num [Player.init]) (by decide)).1

/-- C6: when the elapsed time since the last move is strictly below the
cooldown, the whole player state is unchanged, whatever the direction
and the maze. -/
theorem move_within_cooldown_is_noop :
    ∀ (p : Player) (dx dy : Int) (m : Maze) (t : ℚ),
      t - p.lastMoveTime < p.moveCooldown →
      p.move dx dy m t = p := by
  intro p dx dy m t hlt
  rw [Player.move, if_neg (not_le.mpr hlt)]

theorem move_within_cooldown_is_noop_witness :
    (1/10 : ℚ) - (Player.init 1 1).lastMoveTime < (Player.init 1 1).moveCooldown ∧
    (Player.init 1 1).move 0 1 (Maze.mk 0 0 [] 0 0) (1/10) = Player.init 1 1 :=
  ⟨by norm_num [Player.init],
   move_within_cooldown_is_noop (Player.init 1 1) 0 1 (Maze.mk 0 0 [] 0 0)
     (1/10) (by norm_num [Player.init])⟩

/-! ### Grid access lemmas -/

/-- Well-formedness of a grid for dimensions `w × h`: `h.toNat` rows of
`w.toNat` cells each, as allocated by the constructor. -/
def Wf (w h : Int) (g : Grid) : Prop :=
  g.length = h.toNat ∧ ∀ row ∈ g, row.length = w.toNat

/-- Number of unvisited cells of the grid. -/
def unvisCount (g : Grid) : Nat :=
  (g.map fun row => row.countP fun c => !c.visited).sum

theorem isInsideGrid_iff {w h x y : Int} :
    isInsideGrid w h x y = true ↔ 0 ≤ x ∧ x < w ∧ 0 ≤ y ∧ y < h := by
  simp [isInsideGrid, and_assoc]

theorem wf_freshGrid (w h : Int) : Wf w h (freshGrid w h) := by
  constructor
  · simp [freshGrid]
  · intro row hrow
    rw [freshGrid] at hrow
    rw [List.eq_of_mem_replicate hrow]
    simp

theorem cellAt_freshGrid (w h x y : Int) :
    cellAt (freshGrid w h) x y = ⟨true, false⟩ := by
  rw [cellAt, freshGrid]
  split
  · rw [List.get?_eq_getElem?, List.getElem?_replicate]
    split
    · simp [List.get?_eq_getElem?, List.getElem?_replicate]
      split <;> rfl
    · rfl
  · rfl

theorem unvisCount_freshGrid (w h : Int) :
    unvisCount (freshGrid w h) = h.toNat * w.toNat := by
  simp [unvisCount, freshGrid, List.map_replicate, List.sum_replicate,
    List.countP_replicate, smul_eq_mul]

theorem sum_set_nat : ∀ (l : List Nat) (i : Nat), i < l.length → ∀ a : Nat,
    (l.set i a).sum + l.getD i 0 = l.sum + a := by
  intro l
  induction l with
  | nil => intro i hi; simp at hi
  | cons b bs ih =>
    intro i hi a
    cases i with
    | zero => simp [List.set]; omega
    | succ j =>
      simp only [List.set, List.sum_cons, List.getD_cons_succ]
      have := ih j (by simp at hi; omega) a
      omega

theorem countP_set {α : Type} (p : α → Bool) (d : α) :
    ∀ (l : List α) (i : Nat), i < l.length → ∀ a : α,
    (l.set i a).countP p + (if p (l.getD i d) then 1 else 0)
      = l.countP p + (if p a then 1 else 0) := by
  intro l
  induction l with
  | nil => intro i hi; simp at hi
  | cons b bs ih =>
    intro i hi a
    cases i with
    | zero =>
      simp only [List.set, List.countP_cons, List.getD_cons_zero]
      split <;> split <;> omega
    | succ j =>
      simp only [List.set, List.countP_cons, List.getD_cons_succ]
      have := ih j (by simp at hi; omega) a
      split <;> omega


theorem cellAt_eq {g : Grid} {x y : Int} (h1 : 0 ≤ x) (h3 : 0 ≤ y)
    (hy : y.toNat < g.length) :
    cellAt g x y = (g[y.toNat].get? x.toNat).getD default := by
  rw [cellAt, if_pos ⟨h1, h3⟩, List.get?_eq_getElem?,
    List.getElem?_eq_getElem hy]
  rfl

theorem gridGet_ok {w h : Int} {g : Grid} (hw : Wf w h g) {x y : Int}
    (hin : isInsideGrid w h x y = true) :
    gridGet g x y = .ok (cellAt g x y) := by
  obtain ⟨h1, h2, h3, h4⟩ := isInsideGrid_iff.1 hin
  have hy : y.toNat < g.length := by rw [hw.1]; omega
  have hx : x.toNat < g[y.toNat].length := by
    rw [hw.2 _ (List.getElem_mem hy)]; omega
  rw [gridGet, if_pos ⟨h1, h3⟩, cellAt_eq h1 h3 hy, List.get?_eq_getElem?,
    List.getElem?_eq_getElem hy]
  simp only [Option.some_bind, List.get?_eq_getElem?,
    List.getElem?_eq_getElem hx]
  rfl

theorem gridGet_inside {w h : Int} {g : Grid} (hw : Wf w h g) {x y : Int}
    {c : Cell} (hok : gridGet g x y = .ok c) :
    isInsideGrid w h x y = true := by
  rw [gridGet] at hok
  split at hok
  · rename_i hsign
    split at hok
    · rename_i cell hcell
      rw [isInsideGrid_iff]
      rcases Option.bind_eq_some.1 hcell with ⟨row, hrow, hcol⟩
      rw [List.get?_eq_getElem?] at hrow hcol
      have hy : y.toNat < g.length := by
        by_contra hge
        rw [List.getElem?_eq_none (by omega)] at hrow
        cases hrow
      have hx : x.toNat < row.length := by
        by_contra hge
        rw [List.getElem?_eq_none (by omega)] at hcol
        cases hcol
      have hrow' : row = g[y.toNat] := by
        rw [List.getElem?_eq_getElem hy] at hrow
        exact (Option.some.inj hrow).symm
      have hwl : row.length = w.toNat := by
        rw [hrow']
        exact hw.2 _ (List.getElem_mem hy)
      rw [hw.1] at hy
      rw [hwl] at hx
      omega
    · cases hok
  · cases hok

theorem gridSet_ok {w h : Int} {g : Grid} (hw : Wf w h g) {x y : Int}
    (hin : isInsideGrid w h x y = true) (c : Cell) :
    ∃ g', gridSet g x y c = .ok g' ∧ Wf w h g' ∧
      (∀ a b : Int, cellAt g' a b =
        if a = x ∧ b = y then c else cellAt g a b) ∧
      unvisCount g' + (if (cellAt g x y).visited then 0 else 1)
        = unvisCount g + (if c.visited then 0 else 1) := by
  obtain ⟨h1, h2, h3, h4⟩ := isInsideGrid_iff.1 hin
  have hy : y.toNat < g.length := by rw [hw.1]; omega
  have hx : x.toNat < g[y.toNat].length := by
    rw [hw.2 _ (List.getElem_mem hy)]; omega
  refine ⟨g.set y.toNat (g[y.toNat].set x.toNat c), ?_, ?_, ?_, ?_⟩
  · rw [gridSet, if_pos ⟨h1, h3⟩, List.get?_eq_getElem?,
      List.getElem?_eq_getElem hy]
    simp only [if_pos hx]
  · constructor
    · rw [List.length_set, hw.1]
    · intro row hrow
      rcases List.mem_or_eq_of_mem_set hrow with hmem | heq
      · exact hw.2 _ hmem
      · rw [heq, List.length_set]
        exact hw.2 _ (List.getElem_mem hy)
  · intro a b
    by_cases hsign : 0 ≤ a ∧ 0 ≤ b
    · by_cases hby : b = y
      · subst hby
        have hyl : b.toNat < (g.set b.toNat (g[b.toNat].set x.toNat c)).length := by
          rw [List.length_set]; exact hy
        rw [cellAt_eq hsign.1 hsign.2 hyl, cellAt_eq hsign.1 hsign.2 hy]
        have hrow : (g.set b.toNat (g[b.toNat].set x.toNat c))[b.toNat]
            = g[b.toNat].set x.toNat c := by
          rw [List.getElem_set]
          simp
        rw [hrow]
        by_cases hax : a = x
        · subst hax
          rw [List.get?_eq_getElem?, List.getElem?_set_self (by simpa using hx)]
          simp
        · have : x.toNat ≠ a.toNat := by omega
          rw [List.get?_eq_getElem?, List.getElem?_set_ne this,
            ← List.get?_eq_getElem?]
          rw [if_neg (by tauto)]
      · have hbn : y.toNat ≠ b.toNat := by omega
        rw [cellAt, cellAt, if_pos hsign, if_pos hsign,
          List.get?_eq_getElem?, List.get?_eq_getElem?,
          List.getElem?_set_ne hbn, if_neg (by tauto)]
    · rw [cellAt, if_neg hsign, cellAt, if_neg hsign, if_neg (by omega)]
  · have hcell : cellAt g x y = g[y.toNat].getD x.toNat default := by
      rw [cellAt_eq h1 h3 hy, List.getD_eq_getElem?_getD, List.get?_eq_getElem?]
    have hmap : (g.set y.toNat (g[y.toNat].set x.toNat c)).map
        (fun row => row.countP fun cc => !cc.visited)
        = (g.map fun row => row.countP fun cc => !cc.visited).set y.toNat
            ((g[y.toNat].set x.toNat c).countP fun cc => !cc.visited) := by
      rw [List.map_set]
    have hsum := sum_set_nat (g.map fun row => row.countP fun cc => !cc.visited)
      y.toNat (by simpa using hy)
      ((g[y.toNat].set x.toNat c).countP fun cc => !cc.visited)
    have hgetd : (g.map fun row => row.countP fun cc => !cc.visited).getD y.toNat 0
        = g[y.toNat].countP fun cc => !cc.visited := by
      rw [List.getD_eq_getElem?_getD, List.getElem?_map,
        List.getElem?_eq_getElem hy]
      rfl
    have hcnt := countP_set (fun cc => !cc.visited) default g[y.toNat] x.toNat hx c
    rw [unvisCount, unvisCount, hmap, hcell]
    rw [hgetd] at hsum
    cases hv : (g[y.toNat].getD x.toNat default).visited <;>
      cases hc : c.visited <;>
      rw [hv] at hcnt <;> rw [hc] at hcnt <;>
      simp only [Bool.not_true, Bool.not_false, if_true, if_false,
        Bool.false_eq_true, Bool.true_eq_false, ite_true, ite_false] at hcnt ⊢ <;>
      omega

/-! ### The generator succeeds and only turns flags on -/

/-- Pointwise monotonicity of generation: the visited flag and the
passage state (`isWall = false`) only ever switch on. -/
def GridLe (g g' : Grid) : Prop :=
  ∀ x y : Int,
    ((cellAt g x y).visited = true → (cellAt g' x y).visited = true) ∧
    ((cellAt g x y).isWall = false → (cellAt g' x y).isWall = false)

theorem gridLe_refl (g : Grid) : GridLe g g := fun _ _ => ⟨id, id⟩

theorem gridLe_trans {g1 g2 g3 : Grid} (h12 : GridLe g1 g2)
    (h23 : GridLe g2 g3) : GridLe g1 g3 := fun x y =>
  ⟨fun hv => (h23 x y).1 ((h12 x y).1 hv),
   fun hp => (h23 x y).2 ((h12 x y).2 hp)⟩

theorem gridLe_of_set {g g' : Grid} {x y : Int} {c : Cell}
    (hchar : ∀ a b : Int, cellAt g' a b =
      if a = x ∧ b = y then c else cellAt g a b)
    (hv : (cellAt g x y).visited = true → c.visited = true)
    (hwall : c.isWall = false) : GridLe g g' := by
  intro a b
  rw [hchar a b]
  constructor
  · intro hvv
    split
    · rename_i hab
      exact hv (hab.1 ▸ hab.2 ▸ hvv)
    · exact hvv
  · intro hpp
    split
    · exact hwall
    · exact hpp

theorem mid_inside {w h x y : Int} {d : Int × Int} (hd : d ∈ dirsInit)
    (hx : isInsideGrid w h x y = true)
    (hn : isInsideGrid w h (x + d.1 * 2) (y + d.2 * 2) = true) :
    isInsideGrid w h (x + d.1) (y + d.2) = true := by
  rw [isInsideGrid_iff] at hx hn ⊢
  simp only [dirsInit, List.mem_cons, List.mem_singleton] at hd
  rcases hd with rfl | rfl | rfl | rfl | hd
  all_goals first
  | (simp only [Prod.fst, Prod.snd] at hx hn ⊢; omega)
  | cases hd

theorem dir_ne_zero {d : Int × Int} (hd : d ∈ dirsInit) :
    ¬(d.1 * 2 = d.1 ∧ d.2 * 2 = d.2) := by
  simp only [dirsInit, List.mem_cons, List.mem_singleton] at hd
  rcases hd with rfl | rfl | rfl | rfl | hd
  all_goals first
  | (intro hc; omega)
  | cases hd

theorem exploreDirs_ok {w h : Int} (F : Nat)
    (rec : Grid → Rng → Int → Int → Except GenError (Grid × Rng))
    (hrec : ∀ (g : Grid) (r : Rng) (x y : Int), Wf w h g →
      isInsideGrid w h x y = true → (cellAt g x y).visited = false →
      unvisCount g < F →
      ∃ g' r', rec g r x y = .ok (g', r') ∧ Wf w h g' ∧ GridLe g g' ∧
        (cellAt g' x y).visited = true ∧ (cellAt g' x y).isWall = false ∧
        unvisCount g' < unvisCount g)
    {x y : Int} (hx : isInsideGrid w h x y = true) :
    ∀ (ds : List (Int × Int)), (∀ d ∈ ds, d ∈ dirsInit) →
    ∀ (g : Grid) (r : Rng), Wf w h g → unvisCount g < F →
      ∃ g' r', exploreDirs rec w h x y g r ds = .ok (g', r') ∧ Wf w h g' ∧
        GridLe g g' ∧ unvisCount g' ≤ unvisCount g := by
  intro ds
  induction ds with
  | nil =>
    intro _ g r hw _
    exact ⟨g, r, rfl, hw, gridLe_refl g, le_refl _⟩
  | cons d rest ih =>
    intro hds g r hw hcnt
    have hdmem : d ∈ dirsInit := hds d (List.mem_cons_self d rest)
    have hrest : ∀ d' ∈ rest, d' ∈ dirsInit :=
      fun d' hd' => hds d' (List.mem_cons_of_mem d hd')
    rw [exploreDirs]
    by_cases hinn : isInsideGrid w h (x + d.1 * 2) (y + d.2 * 2) = true
    · rw [if_pos hinn, gridGet_ok hw hinn]
      by_cases hnv : (cellAt g (x + d.1 * 2) (y + d.2 * 2)).visited = true
      · simp only [hnv, if_true]
        exact ih hrest g r hw hcnt
      · rw [Bool.not_eq_true] at hnv
        simp only [hnv, Bool.false_eq_true, if_false]
        have hmid : isInsideGrid w h (x + d.1) (y + d.2) = true :=
          mid_inside hdmem hx hinn
        obtain ⟨g2, hset, hw2, hchar2, hcnt2⟩ :=
          gridSet_ok hw hmid ⟨false, (cellAt g (x + d.1) (y + d.2)).visited⟩
        have hu2 : unvisCount g2 = unvisCount g := by
          cases hmv : (cellAt g (x + d.1) (y + d.2)).visited <;>
            rw [hmv] at hcnt2 <;> simpa using hcnt2
        have hnv2 : (cellAt g2 (x + d.1 * 2) (y + d.2 * 2)).visited = false := by
          rw [hchar2, if_neg]
          · exact hnv
          · intro hc
            exact dir_ne_zero hdmem ⟨by omega, by omega⟩
        obtain ⟨g3, r3, hrecEq, hw3, hle3, _, _, hcnt3⟩ :=
          hrec g2 r (x + d.1 * 2) (y + d.2 * 2) hw2 hinn hnv2 (by omega)
        obtain ⟨g', r', hexp, hw', hle', hcnt'⟩ :=
          ih hrest g3 r3 hw3 (by omega)
        refine ⟨g', r', ?_, hw', ?_, by omega⟩
        · rw [gridGet_ok hw hmid]
          dsimp only
          rw [hset]
          dsimp only
          rw [hrecEq]
          dsimp only
          exact hexp
        · exact gridLe_trans (gridLe_of_set hchar2 (fun hv => hv) rfl)
            (gridLe_trans hle3 hle')
    · rw [if_neg hinn]
      exact ih hrest g r hw hcnt

theorem generateMazeRecursive_ok {w h : Int} :
    ∀ (fuel : Nat) (g : Grid) (r : Rng) (x y : Int),
    Wf w h g → isInsideGrid w h x y = true →
    (cellAt g x y).visited = false → unvisCount g < fuel →
    ∃ g' r', generateMazeRecursive w h fuel g r x y = .ok (g', r') ∧
      Wf w h g' ∧ GridLe g g' ∧ (cellAt g' x y).visited = true ∧
      (cellAt g' x y).isWall = false ∧ unvisCount g' < unvisCount g := by
  intro fuel
  induction fuel with
  | zero => intro g r x y _ _ _ hcnt; omega
  | succ f ih =>
    intro g r x y hw hin hnv hcnt
    rw [generateMazeRecursive_succ]
    obtain ⟨g1, hset, hw1, hchar1, hcnt1⟩ := gridSet_ok hw hin ⟨false, true⟩
    rw [hset]
    have hu1 : unvisCount g1 + 1 = unvisCount g := by
      rw [hnv] at hcnt1
      simpa using hcnt1
    have hvis1 : (cellAt g1 x y).visited = true := by
      rw [hchar1]; simp
    have hpas1 : (cellAt g1 x y).isWall = false := by
      rw [hchar1]; simp
    have hds : ∀ d ∈ (shuffleDirs r).1, d ∈ dirsInit :=
      fun d hd => (shuffleDirs_perm r).mem_iff.mp hd
    obtain ⟨g', r', hexp, hw', hle', hcnt'⟩ :=
      exploreDirs_ok f (generateMazeRecursive w h f) ih hin
        (shuffleDirs r).1 hds g1 (shuffleDirs r).2 hw1 (by omega)
    refine ⟨g', r', hexp, hw', ?_, (hle' x y).1 hvis1, (hle' x y).2 hpas1,
      by omega⟩
    have hle1 : GridLe g g1 := gridLe_of_set hchar1 (fun _ => rfl) rfl
    exact gridLe_trans hle1 hle'

theorem generateMaze_ok {w h : Int} (hw2 : 2 ≤ w) (hh2 : 2 ≤ h) (r : Rng) :
    ∃ g' r', generateMaze w h r = .ok (g', r') ∧ Wf w h g' ∧
      (cellAt g' 1 1).visited = true ∧ (cellAt g' 1 1).isWall = false := by
  have hin : isInsideGrid w h 1 1 = true := isInsideGrid_iff.2 (by omega)
  have hnv : (cellAt (freshGrid w h) 1 1).visited = false := by
    rw [cellAt_freshGrid]
  have hcnt : unvisCount (freshGrid w h) < genFuel w h := by
    rw [unvisCount_freshGrid, genFuel, Nat.mul_comm]
    omega
  obtain ⟨g', r', heq, hwf, _, hvis, hpas, _⟩ :=
    generateMazeRecursive_ok (genFuel w h) (freshGrid w h) r 1 1
      (wf_freshGrid w h) hin hnv hcnt
  exact ⟨g', r', heq, hwf, hvis, hpas⟩

theorem mkMaze_ok {w h : Int} (hw2 : 2 ≤ w) (hh2 : 2 ≤ h) (r : Rng) :
    ∃ m r', mkMaze w h r = .ok (m, r') ∧ m.width = w ∧ m.height = h ∧
      m.exitX = w - 2 ∧ m.exitY = h - 2 ∧ Wf w h m.grid ∧
      (cellAt m.grid 1 1).isWall = false ∧
      (cellAt m.grid (w - 2) (h - 2)).isWall = false := by
  obtain ⟨g, r1, hgen, hwf, hvis, hpas⟩ := generateMaze_ok hw2 hh2 r
  have hex : isInsideGrid w h (w - 2) (h - 2) = true :=
    isInsideGrid_iff.2 (by omega)
  obtain ⟨g2, hset, hwf2, hchar2, _⟩ :=
    gridSet_ok hwf hex ⟨false, (cellAt g (w - 2) (h - 2)).visited⟩
  refine ⟨⟨w, h, g2, w - 2, h - 2⟩, r1, ?_, rfl, rfl, rfl, rfl, hwf2, ?_, ?_⟩
  · rw [mkMaze, hgen]
    dsimp only
    rw [gridGet_ok hwf hex]
    dsimp only
    rw [hset]
  · show (cellAt g2 1 1).isWall = false
    rw [hchar2]
    split
    · rfl
    · exact hpas
  · show (cellAt g2 (w - 2) (h - 2)).isWall = false
    rw [hchar2, if_pos ⟨rfl, rfl⟩]

theorem gridSet_inside {w h : Int} {g g' : Grid} (hw : Wf w h g) {x y : Int}
    {c : Cell} (hok : gridSet g x y c = .ok g') :
    isInsideGrid w h x y = true := by
  rw [gridSet] at hok
  split at hok
  · rename_i hsign
    split at hok
    · rename_i row hrow
      split at hok
      · rename_i hxr
        rw [isInsideGrid_iff]
        rw [List.get?_eq_getElem?] at hrow
        have hy : y.toNat < g.length := by
          by_contra hge
          rw [List.getElem?_eq_none (by omega)] at hrow
          cases hrow
        have hrow' : row = g[y.toNat] := by
          rw [List.getElem?_eq_getElem hy] at hrow
          exact (Option.some.inj hrow).symm
        have hwl : row.length = w.toNat := by
          rw [hrow']
          exact hw.2 _ (List.getElem_mem hy)
        rw [hw.1] at hy
        rw [hwl] at hxr
        omega
      · cases hok
    · cases hok
  · cases hok

theorem mkMaze_inv {w h : Int} {r : Rng} {m : Maze} {r' : Rng}
    (hmk : mkMaze w h r = .ok (m, r')) :
    2 ≤ w ∧ 2 ≤ h ∧ m.width = w ∧ m.height = h ∧
    m.exitX = w - 2 ∧ m.exitY = h - 2 := by
  rw [mkMaze] at hmk
  split at hmk
  · cases hmk
  · rename_i g r1 hgen
    have hwh : 2 ≤ w ∧ 2 ≤ h := by
      rw [generateMaze, genFuel, generateMazeRecursive_succ] at hgen
      split at hgen
      · cases hgen
      · rename_i g1 hset
        have hin := gridSet_inside (wf_freshGrid w h) hset
        rw [isInsideGrid_iff] at hin
        omega
    split at hmk
    · cases hmk
    · split at hmk
      · cases hmk
      · rename_i g2 hset2
        injection hmk with hpair
        injection hpair with hm hr
        subst hm
        exact ⟨hwh.1, hwh.2, rfl, rfl, rfl, rfl⟩

/-- C10: under the 3 × 3 minimum, every raw grid access of maze
construction is in bounds and the recursion fuel suffices: for every
dimension pair and every draw stream the embedded constructor, in which
any out-of-bounds access would surface as an error, returns a maze. -/
theorem construction_accesses_in_bounds :
    ∀ (w h : Int), 3 ≤ w → 3 ≤ h → ∀ r : Rng,
      ∃ m r', mkMaze w h r = .ok (m, r') := by
  intro w h hw hh r
  obtain ⟨m, r', heq, _⟩ := @mkMaze_ok w h (by omega) (by omega) r
  exact ⟨m, r', heq⟩

theorem construction_accesses_in_bounds_witness :
    ∃ m r', mkMaze 3 3 rng0 = .ok (m, r') :=
  construction_accesses_in_bounds 3 3 (by norm_num) (by norm_num) rng0

/-- C3 counterexample: the claim says construction fails whenever
`width < 3` or `height < 3`, with no maze value produced; but at
2 × 2 the constructor performs no dimension validation and happily
returns a maze. -/
theorem no_invalid_dimensions_error_at_2x2 :
    ∃ m r', mkMaze 2 2 rng0 = .ok (m, r') := ⟨_, _, rfl⟩

/-- C3 amended: the constructor performs no dimension validation and
raises no error for any dimensions with `width ≥ 2` and `height ≥ 2`
(below the spec's 3 × 3 minimum included): it always returns a maze;
only for `width < 2` or `height < 2` does construction fail, and then
with an out-of-bounds grid access, not a dimension check. -/
theorem no_dimension_validation :
    ∀ (w h : Int), 2 ≤ w → 2 ≤ h → ∀ r : Rng,
      ∃ m r', mkMaze w h r = .ok (m, r') := by
  intro w h hw hh r
  obtain ⟨m, r', heq, _⟩ := mkMaze_ok hw hh r
  exact ⟨m, r', heq⟩

theorem no_dimension_validation_witness :
    ∃ m r', mkMaze 2 2 rng0 = .ok (m, r') :=
  no_dimension_validation 2 2 (by norm_num) (by norm_num) rng0

/-- C2: for every constructed maze with `width ≥ 3` and `height ≥ 3`
and every draw stream, the cell `(width-2, height-2)` is a passage
after construction, and `isExit` holds exactly at that coordinate. -/
theorem exit_is_passage_and_unique :
    ∀ (w h : Int), 3 ≤ w → 3 ≤ h → ∀ (r : Rng) (m : Maze) (r' : Rng),
      mkMaze w h r = .ok (m, r') →
      m.isWall (w - 2) (h - 2) = false ∧
      (∀ x y : Int, m.isExit x y = true ↔ (x = w - 2 ∧ y = h - 2)) := by
  intro w h hw hh r m r' hmk
  obtain ⟨m0, r0, heq, hwidth, hheight, hex, hey, hwf, hp11, hpexit⟩ :=
    @mkMaze_ok w h (by omega) (by omega) r
  rw [hmk] at heq
  injection heq with hpair
  injection hpair with hm hr
  subst hm
  constructor
  · rw [Maze.isWall, if_pos, hpexit]
    rw [hwidth, hheight]
    exact isInsideGrid_iff.2 (by omega)
  · intro x y
    rw [Maze.isExit, hex, hey]
    simp

theorem exit_is_passage_and_unique_witness :
    ∃ (m : Maze) (r' : Rng), mkMaze 3 3 rng0 = .ok (m, r') ∧
      m.isWall 1 1 = false ∧ m.isExit 1 1 = true := by
  refine ⟨_, _, rfl, ?_, ?_⟩
  · exact (exit_is_passage_and_unique 3 3 (by norm_num) (by norm_num)
      rng0 _ _ rfl).1
  · exact ((exit_is_passage_and_unique 3 3 (by norm_num) (by norm_num)
      rng0 _ _ rfl).2 1 1).2 ⟨rfl, rfl⟩

/-- C7: the queries are total functions on all integer coordinates, and
for every constructed maze an out-of-bounds coordinate is always a wall
and never the exit. -/
theorem oob_is_wall_never_exit :
    ∀ (w h : Int) (r : Rng) (m : Maze) (r' : Rng),
      mkMaze w h r = .ok (m, r') →
      ∀ x y : Int, isInsideGrid m.width m.height x y = false →
        m.isWall x y = true ∧ m.isExit x y = false := by
  intro w h r m r' hmk x y hoob
  obtain ⟨hw2, hh2, hwidth, hheight, hex, hey⟩ := mkMaze_inv hmk
  constructor
  · rw [Maze.isWall, hoob]
    simp
  · rw [Maze.isExit, hex, hey]
    rw [hwidth, hheight] at hoob
    by_contra hc
    rw [Bool.not_eq_false] at hc
    simp only [Bool.and_eq_true, decide_eq_true_eq] at hc
    obtain ⟨rfl, rfl⟩ := hc
    have ht : isInsideGrid w h (w - 2) (h - 2) = true :=
      isInsideGrid_iff.2 (by omega)
    rw [ht] at hoob
    cases hoob

theorem oob_is_wall_never_exit_witness :
    ∃ (m : Maze) (r' : Rng), mkMaze 3 3 rng0 = .ok (m, r') ∧
      m.isWall 5 0 = true ∧ m.isExit 5 0 = false := by
  refine ⟨_, _, rfl, ?_⟩
  have h := oob_is_wall_never_exit 3 3 rng0 _ _ rfl 5 0 (by decide)
  exact h

theorem move_preserves_passage {m : Maze} {p : Player}
    (hp : m.isWall p.x p.y = false) (dx dy : Int) (t : ℚ) :
    m.isWall (p.move dx dy m t).x (p.move dx dy m t).y = false := by
  rw [Player.move]
  split
  · by_cases hwall : m.isWall (p.x + dx) (p.y + dy) = true
    · rw [if_pos hwall]
      exact hp
    · rw [if_neg hwall]
      rw [Bool.not_eq_true] at hwall
      exact hwall
  · exact hp

/-- C8: starting from the passage cell `(1,1)` of a generated maze,
the player's position refers to a passage cell after any sequence of
move attempts: each move preserves the not-on-a-wall invariant. -/
theorem player_stays_on_passages :
    ∀ (w h : Int), 3 ≤ w → 3 ≤ h → ∀ (r : Rng) (m : Maze) (r' : Rng),
      mkMaze w h r = .ok (m, r') →
      m.isWall 1 1 = false ∧
      ∀ (p : Player) (ms : List (Int × Int × ℚ)),
        m.isWall p.x p.y = false →
        m.isWall (applyMoves m p ms).x (applyMoves m p ms).y = false := by
  intro w h hw hh r m r' hmk
  obtain ⟨m0, r0, heq, hwidth, hheight, hex, hey, hwf, hp11, hpexit⟩ :=
    @mkMaze_ok w h (by omega) (by omega) r
  rw [hmk] at heq
  injection heq with hpair
  injection hpair with hm hr
  subst hm
  constructor
  · rw [Maze.isWall, if_pos, hp11]
    rw [hwidth, hheight]
    exact isInsideGrid_iff.2 (by omega)
  · intro p ms
    induction ms generalizing p with
    | nil => exact fun hp => hp
    | cons mv rest ih =>
      intro hp
      rw [applyMoves, List.foldl_cons]
      exact ih _ (move_preserves_passage hp mv.1 mv.2.1 mv.2.2)

theorem player_stays_on_passages_witness :
    ∃ (m : Maze) (r' : Rng), mkMaze 3 3 rng0 = .ok (m, r') ∧
      m.isWall (applyMoves m (Player.init 1 1) [(0, 1, 1)]).x
        (applyMoves m (Player.init 1 1) [(0, 1, 1)]).y = false := by
  refine ⟨_, _, rfl, ?_⟩
  have h := player_stays_on_passages 3 3 (by norm_num) (by norm_num)
    rng0 _ _ rfl
  exact h.2 (Player.init 1 1) [(0, 1, 1)] h.1

/-! ### The passage graph of a grid (claim C1) -/

/-- The cell `c` is a passage of `g`. -/
def pasAt (g : Grid) (c : ℤ × ℤ) : Prop := (cellAt g c.1 c.2).isWall = false

/-- The cell `c` was visited by the generator. -/
def visAt (g : Grid) (c : ℤ × ℤ) : Prop := (cellAt g c.1 c.2).visited = true

/-- 4-directional adjacency of grid cells. -/
def unitAdj (a b : ℤ × ℤ) : Prop :=
  (a.1 - b.1).natAbs + (a.2 - b.2).natAbs = 1

theorem unitAdj_symm {a b : ℤ × ℤ} (h : unitAdj a b) : unitAdj b a := by
  rw [unitAdj] at h ⊢
  omega

theorem unitAdj_irrefl (a : ℤ × ℤ) : ¬unitAdj a a := by
  rw [unitAdj]
  omega

theorem unitAdj_ne {a b : ℤ × ℤ} (h : unitAdj a b) : a ≠ b := by
  intro hab
  subst hab
  exact unitAdj_irrefl a h

theorem unitAdj_cases {a b : ℤ × ℤ} (h : unitAdj a b) :
    (a.1 = b.1 + 1 ∧ a.2 = b.2) ∨ (a.1 = b.1 - 1 ∧ a.2 = b.2) ∨
    (a.1 = b.1 ∧ a.2 = b.2 + 1) ∨ (a.1 = b.1 ∧ a.2 = b.2 - 1) := by
  rw [unitAdj] at h
  omega

/-- The graph on all cells whose edges join 4-adjacent passage cells. -/
def pasGraph (g : Grid) : SimpleGraph (ℤ × ℤ) where
  Adj a b := unitAdj a b ∧ pasAt g a ∧ pasAt g b
  symm := fun _ _ h => ⟨unitAdj_symm h.1, h.2.2, h.2.1⟩
  loopless := fun a h => unitAdj_irrefl a h.1

theorem pasGraph_mono {g g' : Grid} (hle : GridLe g g') :
    pasGraph g ≤ pasGraph g' := by
  intro a b hab
  exact ⟨hab.1, (hle a.1 a.2).2 hab.2.1, (hle b.1 b.2).2 hab.2.2⟩

/-- Any non-nil walk contains a final step into its last vertex. -/
theorem exists_last_adj {V : Type} {G : SimpleGraph V} :
    ∀ {u v : V} (p : G.Walk u v), 0 < p.length →
      ∃ b, G.Adj b v ∧ s(b, v) ∈ p.edges := by
  intro u v p
  induction p with
  | nil => intro hlen; simp at hlen
  | cons hadj rest ih =>
    rename_i a x b
    intro _
    cases rest with
    | nil => exact ⟨a, hadj, by simp⟩
    | cons hadj2 rest2 =>
      obtain ⟨b1, hb1, hmem⟩ := ih (by simp)
      refine ⟨b1, hb1, ?_⟩
      rw [SimpleGraph.Walk.edges_cons]
      exact List.mem_cons_of_mem _ hmem

/-- A vertex on a cycle has two distinct neighbours. -/
theorem cycle_two_nbrs {V : Type} [DecidableEq V] {G : SimpleGraph V}
    {v0 : V} {p : G.Walk v0 v0} (hp : p.IsCycle) {c : V}
    (hc : c ∈ p.support) :
    ∃ a b, a ≠ b ∧ G.Adj c a ∧ G.Adj c b := by
  have hrot : (p.rotate hc).IsCycle := hp.rotate hc
  have hlen : (p.rotate hc).length = p.length := by
    rw [← SimpleGraph.Walk.length_edges,
      (SimpleGraph.Walk.rotate_edges p hc).perm.length_eq,
      SimpleGraph.Walk.length_edges]
  cases hq : p.rotate hc with
  | nil =>
    rw [hq] at hrot
    exact absurd hrot (SimpleGraph.Walk.IsCycle.not_of_nil)
  | cons hadj p' =>
    rename_i b0
    rw [hq] at hrot
    rw [SimpleGraph.Walk.cons_isCycle_iff] at hrot
    have hp'len : 0 < p'.length := by
      have h3 := hp.three_le_length
      rw [← hlen, hq, SimpleGraph.Walk.length_cons] at h3
      omega
    obtain ⟨b1, hb1, hmem⟩ := exists_last_adj p' hp'len
    refine ⟨b0, b1, ?_, hadj, hb1.symm⟩
    intro hbb
    subst hbb
    exact hrot.2 (by rwa [Sym2.eq_swap] at hmem)

/-- Adding a vertex of degree at most one to an acyclic graph keeps it
acyclic. -/
theorem isAcyclic_insert {V : Type} [DecidableEq V] {G H : SimpleGraph V}
    (c : V) (hGH : ∀ u v, H.Adj u v → u ≠ c → v ≠ c → G.Adj u v)
    (hdeg : ∀ u v, H.Adj c u → H.Adj c v → u = v)
    (hG : G.IsAcyclic) : H.IsAcyclic := by
  intro v p hp
  by_cases hc : c ∈ p.support
  · obtain ⟨a, b, hab, ha, hb⟩ := cycle_two_nbrs hp hc
    exact hab (hdeg a b ha hb)
  · have hedges : ∀ e ∈ p.edges, e ∈ G.edgeSet := by
      intro e he
      induction e using Sym2.ind with
      | _ u v =>
        have hadj : H.Adj u v := p.adj_of_mem_edges he
        have hu : u ∈ p.support :=
          SimpleGraph.Walk.fst_mem_support_of_mem_edges p he
        have hv : v ∈ p.support :=
          SimpleGraph.Walk.snd_mem_support_of_mem_edges p he
        have hunc : u ≠ c := fun h => hc (h ▸ hu)
        have hvnc : v ≠ c := fun h => hc (h ▸ hv)
        exact (hGH u v hadj hunc hvnc)
    exact hG (p.transfer G hedges) (hp.transfer hedges)

/-- Cells at odd coordinates: the sublattice traversed by the
generator. -/
def OddCell (c : ℤ × ℤ) : Prop := c.1 % 2 = 1 ∧ c.2 % 2 = 1

/-- An intermediate corridor cell: one even coordinate, lying between
two visited sublattice cells. -/
def MidCell (g : Grid) (c : ℤ × ℤ) : Prop :=
  (c.1 % 2 = 0 ∧ c.2 % 2 = 1 ∧ visAt g (c.1 - 1, c.2) ∧
    visAt g (c.1 + 1, c.2)) ∨
  (c.1 % 2 = 1 ∧ c.2 % 2 = 0 ∧ visAt g (c.1, c.2 - 1) ∧
    visAt g (c.1, c.2 + 1))

/-- Invariant of the generator between recursive calls: every visited
cell is an in-bounds odd-odd passage, every passage is visited or an
intermediate corridor cell, and the passage graph is acyclic with all
passages connected to the start `(1,1)`. -/
structure GenInv (w h : Int) (g : Grid) : Prop where
  wf : Wf w h g
  vis_inB : ∀ c : ℤ × ℤ, visAt g c → isInsideGrid w h c.1 c.2 = true
  vis_odd : ∀ c : ℤ × ℤ, visAt g c → OddCell c
  vis_pas : ∀ c : ℤ × ℤ, visAt g c → pasAt g c
  pas_struct : ∀ c : ℤ × ℤ, pasAt g c → visAt g c ∨ MidCell g c
  acyc : (pasGraph g).IsAcyclic
  conn : ∀ c : ℤ × ℤ, pasAt g c → (pasGraph g).Reachable (1, 1) c

/-- Precondition of `generateMazeRecursive` at its target cell `t`:
the invariant, weakened to allow the one just-carved intermediate cell
waiting for `t`, together with the attachment facts for `t`. -/
structure GenPre (w h : Int) (g : Grid) (t : ℤ × ℤ) : Prop where
  wf : Wf w h g
  vis_inB : ∀ c : ℤ × ℤ, visAt g c → isInsideGrid w h c.1 c.2 = true
  vis_odd : ∀ c : ℤ × ℤ, visAt g c → OddCell c
  vis_pas : ∀ c : ℤ × ℤ, visAt g c → pasAt g c
  pas_struct : ∀ c : ℤ × ℤ, pasAt g c → visAt g c ∨ MidCell g c ∨
    (unitAdj c t ∧ visAt g (2 * c.1 - t.1, 2 * c.2 - t.2))
  acyc : (pasGraph g).IsAcyclic
  conn : ∀ c : ℤ × ℤ, pasAt g c → (pasGraph g).Reachable (1, 1) c
  t_nbr_unique : ∀ c c' : ℤ × ℤ, unitAdj c t → pasAt g c →
    unitAdj c' t → pasAt g c' → c = c'
  t_attach : t = (1, 1) ∨ ∃ m : ℤ × ℤ, unitAdj m t ∧ pasAt g m
  t_inB : isInsideGrid w h t.1 t.2 = true
  t_odd : OddCell t
  t_unvis : ¬visAt g t

theorem pasAt_iff_of_set {g g' : Grid} {t : ℤ × ℤ} {cell : Cell}
    (hchar : ∀ a b : Int, cellAt g' a b =
      if a = t.1 ∧ b = t.2 then cell else cellAt g a b)
    (hpc : cell.isWall = false) :
    ∀ c : ℤ × ℤ, pasAt g' c ↔ (c = t ∨ pasAt g c) := by
  intro c
  rw [pasAt, hchar c.1 c.2]
  split
  · rename_i hct
    simp only [hpc, true_iff]
    exact Or.inl (Prod.ext hct.1 hct.2)
  · rename_i hct
    rw [pasAt]
    constructor
    · exact Or.inr
    · rintro (rfl | hp)
      · exact absurd ⟨rfl, rfl⟩ hct
      · exact hp

theorem visAt_iff_of_mark {g g' : Grid} {t : ℤ × ℤ}
    (hchar : ∀ a b : Int, cellAt g' a b =
      if a = t.1 ∧ b = t.2 then ⟨false, true⟩ else cellAt g a b) :
    ∀ c : ℤ × ℤ, visAt g' c ↔ (c = t ∨ visAt g c) := by
  intro c
  rw [visAt, hchar c.1 c.2]
  split
  · rename_i hct
    simp only [true_iff]
    exact Or.inl (Prod.ext hct.1 hct.2)
  · rename_i hct
    rw [visAt]
    constructor
    · exact Or.inr
    · rintro (rfl | hp)
      · exact absurd ⟨rfl, rfl⟩ hct
      · exact hp

theorem visAt_iff_of_carve {g g' : Grid} {t : ℤ × ℤ} {b : Bool}
    (hchar : ∀ a b' : Int, cellAt g' a b' =
      if a = t.1 ∧ b' = t.2 then ⟨false, b⟩ else cellAt g a b')
    (hb : b = (cellAt g t.1 t.2).visited) :
    ∀ c : ℤ × ℤ, visAt g' c ↔ visAt g c := by
  intro c
  rw [visAt, hchar c.1 c.2]
  split
  · rename_i hct
    rw [visAt]
    subst hb
    show (cellAt g t.1 t.2).visited = true ↔ _
    rw [hct.1, hct.2]
  · rw [visAt]

theorem markStep {w h : Int} {g g1 : Grid} {t : ℤ × ℤ}
    (pre : GenPre w h g t) (hwf1 : Wf w h g1)
    (hchar : ∀ a b : Int, cellAt g1 a b =
      if a = t.1 ∧ b = t.2 then ⟨false, true⟩ else cellAt g a b) :
    GenInv w h g1 ∧ visAt g1 t := by
  have hvis := visAt_iff_of_mark hchar
  have hpas := pasAt_iff_of_set hchar rfl
  have hle : GridLe g g1 := gridLe_of_set hchar (fun _ => rfl) rfl
  have hmono := pasGraph_mono hle
  have hvt : visAt g1 t := (hvis t).2 (Or.inl rfl)
  have hpt : pasAt g1 t := (hpas t).2 (Or.inl rfl)
  refine ⟨⟨hwf1, ?_, ?_, ?_, ?_, ?_, ?_⟩, hvt⟩
  · intro c hc
    rcases (hvis c).1 hc with hct | hc'
    · subst hct; exact pre.t_inB
    · exact pre.vis_inB c hc'
  · intro c hc
    rcases (hvis c).1 hc with hct | hc'
    · subst hct; exact pre.t_odd
    · exact pre.vis_odd c hc'
  · intro c hc
    rcases (hvis c).1 hc with hct | hc'
    · subst hct; exact hpt
    · exact (hle c.1 c.2).2 (pre.vis_pas c hc')
  · intro c hc
    rcases (hpas c).1 hc with hct | hc'
    · subst hct; exact Or.inl hvt
    · rcases pre.pas_struct c hc' with hv | hm | ⟨hadj, hvmirror⟩
      · exact Or.inl ((hvis c).2 (Or.inr hv))
      · refine Or.inr ?_
        rcases hm with ⟨h1, h2, h3, h4⟩ | ⟨h1, h2, h3, h4⟩
        · exact Or.inl ⟨h1, h2, (hvis _).2 (Or.inr h3), (hvis _).2 (Or.inr h4)⟩
        · exact Or.inr ⟨h1, h2, (hvis _).2 (Or.inr h3), (hvis _).2 (Or.inr h4)⟩
      · refine Or.inr ?_
        obtain ⟨hto1, hto2⟩ := pre.t_odd
        have hmir : visAt g1 (2 * c.1 - t.1, 2 * c.2 - t.2) :=
          (hvis _).2 (Or.inr hvmirror)
        rcases unitAdj_cases hadj with ⟨hx, hy⟩ | ⟨hx, hy⟩ | ⟨hx, hy⟩ | ⟨hx, hy⟩
        · refine Or.inl ⟨by omega, by omega, ?_, ?_⟩
          · have hpt' : (c.1 - 1, c.2) = t := Prod.ext (by omega) (by omega)
            rw [hpt']; exact hvt
          · have hmm : ((c.1 : ℤ) + 1, c.2) = (2 * c.1 - t.1, 2 * c.2 - t.2) :=
              Prod.ext (by omega) (by omega)
            rw [hmm]; exact hmir
        · refine Or.inl ⟨by omega, by omega, ?_, ?_⟩
          · have hmm : ((c.1 : ℤ) - 1, c.2) = (2 * c.1 - t.1, 2 * c.2 - t.2) :=
              Prod.ext (by omega) (by omega)
            rw [hmm]; exact hmir
          · have hpt' : (c.1 + 1, c.2) = t := Prod.ext (by omega) (by omega)
            rw [hpt']; exact hvt
        · refine Or.inr ⟨by omega, by omega, ?_, ?_⟩
          · have hpt' : (c.1, c.2 - 1) = t := Prod.ext (by omega) (by omega)
            rw [hpt']; exact hvt
          · have hmm : ((c.1 : ℤ), c.2 + 1) = (2 * c.1 - t.1, 2 * c.2 - t.2) :=
              Prod.ext (by omega) (by omega)
            rw [hmm]; exact hmir
        · refine Or.inr ⟨by omega, by omega, ?_, ?_⟩
          · have hmm : ((c.1 : ℤ), c.2 - 1) = (2 * c.1 - t.1, 2 * c.2 - t.2) :=
              Prod.ext (by omega) (by omega)
            rw [hmm]; exact hmir
          · have hpt' : (c.1, c.2 + 1) = t := Prod.ext (by omega) (by omega)
            rw [hpt']; exact hvt
  · refine isAcyclic_insert t ?_ ?_ pre.acyc
    · intro u v huv hu hv
      refine ⟨huv.1, ?_, ?_⟩
      · rcases (hpas u).1 huv.2.1 with hct | hp
        · exact absurd hct hu
        · exact hp
      · rcases (hpas v).1 huv.2.2 with hct | hp
        · exact absurd hct hv
        · exact hp
    · intro u v hu hv
      have hut : u ≠ t := fun hh => unitAdj_irrefl t (hh ▸ hu.1)
      have hvt' : v ≠ t := fun hh => unitAdj_irrefl t (hh ▸ hv.1)
      have hpu : pasAt g u := by
        rcases (hpas u).1 hu.2.2 with hct | hp
        · exact absurd hct hut
        · exact hp
      have hpv : pasAt g v := by
        rcases (hpas v).1 hv.2.2 with hct | hp
        · exact absurd hct hvt'
        · exact hp
      exact pre.t_nbr_unique u v (unitAdj_symm hu.1) hpu
        (unitAdj_symm hv.1) hpv
  · intro c hc
    rcases (hpas c).1 hc with hct | hc'
    · subst hct
      rcases pre.t_attach with hc1 | ⟨m, hm1, hm2⟩
      · rw [hc1]
      · have hrm : (pasGraph g1).Reachable (1, 1) m :=
          (pre.conn m hm2).mono hmono
        have hadjm : (pasGraph g1).Adj m c :=
          ⟨hm1, (hpas m).2 (Or.inr hm2), hpt⟩
        exact hrm.trans hadjm.reachable
    · exact ((pre.conn c hc').mono hmono)

theorem unitAdj_pair {a1 a2 b1 b2 : ℤ}
    (h : (a1 - b1).natAbs + (a2 - b2).natAbs = 1) :
    unitAdj (a1, a2) (b1, b2) := h

theorem unitAdj_pair_cases {a1 a2 b1 b2 : ℤ} (h : unitAdj (a1, a2) (b1, b2)) :
    (a1 = b1 + 1 ∧ a2 = b2) ∨ (a1 = b1 - 1 ∧ a2 = b2) ∨
    (a1 = b1 ∧ a2 = b2 + 1) ∨ (a1 = b1 ∧ a2 = b2 - 1) := unitAdj_cases h

theorem midCell_parity {g : Grid} {c1 c2 : ℤ} (hm : MidCell g (c1, c2)) :
    (c1 % 2 = 0 ∧ c2 % 2 = 1) ∨ (c1 % 2 = 1 ∧ c2 % 2 = 0) := by
  rcases hm with ⟨h1, h2, _, _⟩ | ⟨h1, h2, _, _⟩
  · exact Or.inl ⟨h1, h2⟩
  · exact Or.inr ⟨h1, h2⟩

/-- An odd-odd cell adjacent to an intermediate corridor cell is one of
its two visited ends. -/
theorem midcell_nbr_vis {g : Grid} {c t : ℤ × ℤ} (hm : MidCell g c)
    (hadj : unitAdj c t) (ht : OddCell t) : visAt g t := by
  obtain ⟨ht1, ht2⟩ := ht
  rcases hm with ⟨h1, h2, h3, h4⟩ | ⟨h1, h2, h3, h4⟩ <;>
    rcases unitAdj_cases hadj with ⟨hx, hy⟩ | ⟨hx, hy⟩ | ⟨hx, hy⟩ | ⟨hx, hy⟩ <;>
    first
    | (exfalso; omega)
    | (have he : t = (c.1 - 1, c.2) := Prod.ext (by omega) (by omega)
       rw [he]; exact h3)
    | (have he : t = (c.1 + 1, c.2) := Prod.ext (by omega) (by omega)
       rw [he]; exact h4)
    | (have he : t = (c.1, c.2 - 1) := Prod.ext (by omega) (by omega)
       rw [he]; exact h3)
    | (have he : t = (c.1, c.2 + 1) := Prod.ext (by omega) (by omega)
       rw [he]; exact h4)

theorem carveStep {w h : Int} {g g2 : Grid} {x y dx dy : Int}
    (inv : GenInv w h g)
    (hvp : visAt g (x, y))
    (hd : (dx = 0 ∧ dy = -1) ∨ (dx = 0 ∧ dy = 1) ∨ (dx = -1 ∧ dy = 0) ∨
      (dx = 1 ∧ dy = 0))
    (hinn : isInsideGrid w h (x + dx * 2) (y + dy * 2) = true)
    (htv : ¬visAt g (x + dx * 2, y + dy * 2))
    (hwf2 : Wf w h g2)
    (hchar : ∀ a b : Int, cellAt g2 a b =
      if a = x + dx ∧ b = y + dy then
        ⟨false, (cellAt g (x + dx) (y + dy)).visited⟩
      else cellAt g a b) :
    GenPre w h g2 (x + dx * 2, y + dy * 2) := by
  have hox : x % 2 = 1 := (inv.vis_odd _ hvp).1
  have hoy : y % 2 = 1 := (inv.vis_odd _ hvp).2
  have hdabs : dx.natAbs + dy.natAbs = 1 := by
    rcases hd with ⟨rfl, rfl⟩ | ⟨rfl, rfl⟩ | ⟨rfl, rfl⟩ | ⟨rfl, rfl⟩ <;> rfl
  have hpas2 := @pasAt_iff_of_set g g2 (x + dx, y + dy)
    ⟨false, (cellAt g (x + dx) (y + dy)).visited⟩ hchar rfl
  have hvis2 := @visAt_iff_of_carve g g2 (x + dx, y + dy)
    ((cellAt g (x + dx) (y + dy)).visited) hchar rfl
  have hle : GridLe g g2 := gridLe_of_set hchar (fun hv => hv) rfl
  have hmono := pasGraph_mono hle
  have ht'odd : OddCell (x + dx * 2, y + dy * 2) := ⟨by omega, by omega⟩
  have hadjmt : unitAdj (x + dx, y + dy) (x + dx * 2, y + dy * 2) :=
    unitAdj_pair (by omega)
  have hadjpm : unitAdj (x, y) (x + dx, y + dy) := unitAdj_pair (by omega)
  have hpmid : pasAt g2 (x + dx, y + dy) := (hpas2 _).2 (Or.inl rfl)
  have hppas : pasAt g2 (x, y) := (hle x y).2 (inv.vis_pas _ hvp)
  have hnbru : ∀ u : ℤ × ℤ, unitAdj (x + dx, y + dy) u → pasAt g u →
      u = (x, y) := by
    intro u hadj hpu
    obtain ⟨u1, u2⟩ := u
    rcases inv.pas_struct _ hpu with hv | hm
    · have hu1 : u1 % 2 = 1 := (inv.vis_odd _ hv).1
      have hu2 : u2 % 2 = 1 := (inv.vis_odd _ hv).2
      rcases hd with ⟨hdx, hdy⟩ | ⟨hdx, hdy⟩ | ⟨hdx, hdy⟩ | ⟨hdx, hdy⟩ <;>
        rcases unitAdj_pair_cases hadj with ⟨hx, hy⟩ | ⟨hx, hy⟩ |
          ⟨hx, hy⟩ | ⟨hx, hy⟩ <;>
        first
        | (exact Prod.ext (by omega) (by omega))
        | (exact absurd ((show ((u1 : ℤ), (u2 : ℤ)) =
            (x + dx * 2, y + dy * 2) from
            Prod.ext (by omega) (by omega)) ▸ hv) htv)
    · rcases midCell_parity hm with ⟨h1, h2⟩ | ⟨h1, h2⟩ <;>
        rcases unitAdj_pair_cases hadj with ⟨hx, hy⟩ | ⟨hx, hy⟩ |
          ⟨hx, hy⟩ | ⟨hx, hy⟩ <;>
        exfalso <;> omega
  have hto : ∀ c : ℤ × ℤ, unitAdj c (x + dx * 2, y + dy * 2) →
      pasAt g2 c → c = (x + dx, y + dy) := by
    intro c hadj hc
    rcases (hpas2 c).1 hc with hct | hcg
    · exact hct
    · exfalso
      rcases inv.pas_struct c hcg with hv | hm
      · obtain ⟨c1, c2⟩ := c
        have hc1 : c1 % 2 = 1 := (inv.vis_odd _ hv).1
        have hc2 : c2 % 2 = 1 := (inv.vis_odd _ hv).2
        rcases unitAdj_pair_cases hadj with ⟨hx, hy⟩ | ⟨hx, hy⟩ |
          ⟨hx, hy⟩ | ⟨hx, hy⟩ <;> omega
      · exact htv (midcell_nbr_vis hm hadj ht'odd)
  refine ⟨hwf2, ?_, ?_, ?_, ?_, ?_, ?_, ?_, ?_, hinn, ht'odd, ?_⟩
  · intro c hc
    exact inv.vis_inB c ((hvis2 c).1 hc)
  · intro c hc
    exact inv.vis_odd c ((hvis2 c).1 hc)
  · intro c hc
    exact (hle c.1 c.2).2 (inv.vis_pas c ((hvis2 c).1 hc))
  · intro c hc
    rcases (hpas2 c).1 hc with hct | hcg
    · subst hct
      refine Or.inr (Or.inr ⟨hadjmt, ?_⟩)
      dsimp only
      have he : ((2 * (x + dx) - (x + dx * 2) : ℤ),
          (2 * (y + dy) - (y + dy * 2) : ℤ)) = (x, y) :=
        Prod.ext (by omega) (by omega)
      rw [he]
      exact (hvis2 _).2 hvp
    · rcases inv.pas_struct c hcg with hv | hm
      · exact Or.inl ((hvis2 c).2 hv)
      · refine Or.inr (Or.inl ?_)
        rcases hm with ⟨h1, h2, h3, h4⟩ | ⟨h1, h2, h3, h4⟩
        · exact Or.inl ⟨h1, h2, (hvis2 _).2 h3, (hvis2 _).2 h4⟩
        · exact Or.inr ⟨h1, h2, (hvis2 _).2 h3, (hvis2 _).2 h4⟩
  · refine isAcyclic_insert ((x + dx : ℤ), (y + dy : ℤ)) ?_ ?_ inv.acyc
    · intro u v huv hu hv
      refine ⟨huv.1, ?_, ?_⟩
      · rcases (hpas2 u).1 huv.2.1 with hct | hp
        · exact absurd hct hu
        · exact hp
      · rcases (hpas2 v).1 huv.2.2 with hct | hp
        · exact absurd hct hv
        · exact hp
    · intro u v hu hv
      have hut : u ≠ (x + dx, y + dy) :=
        fun hh => unitAdj_irrefl _ (hh ▸ hu.1)
      have hvt' : v ≠ (x + dx, y + dy) :=
        fun hh => unitAdj_irrefl _ (hh ▸ hv.1)
      have hpu : pasAt g u := by
        rcases (hpas2 u).1 hu.2.2 with hct | hp
        · exact absurd hct hut
        · exact hp
      have hpv : pasAt g v := by
        rcases (hpas2 v).1 hv.2.2 with hct | hp
        · exact absurd hct hvt'
        · exact hp
      rw [hnbru u hu.1 hpu, hnbru v hv.1 hpv]
  · intro c hc
    rcases (hpas2 c).1 hc with hct | hcg
    · subst hct
      have hreach : (pasGraph g2).Reachable (1, 1) (x, y) :=
        (inv.conn _ (inv.vis_pas _ hvp)).mono hmono
      exact hreach.trans (SimpleGraph.Adj.reachable ⟨hadjpm, hppas, hpmid⟩)
    · exact (inv.conn c hcg).mono hmono
  · intro c c' h1 h2 h3 h4
    rw [hto c h1 h2, hto c' h3 h4]
  · exact Or.inr ⟨(x + dx, y + dy), hadjmt, hpmid⟩
  · intro hc
    exact htv ((hvis2 _).1 hc)

theorem dirs_cases {d : Int × Int} (hd : d ∈ dirsInit) :
    (d.1 = 0 ∧ d.2 = -1) ∨ (d.1 = 0 ∧ d.2 = 1) ∨ (d.1 = -1 ∧ d.2 = 0) ∨
    (d.1 = 1 ∧ d.2 = 0) := by
  simp only [dirsInit, List.mem_cons, List.mem_singleton] at hd
  rcases hd with rfl | rfl | rfl | rfl | hd
  · exact Or.inl ⟨rfl, rfl⟩
  · exact Or.inr (Or.inl ⟨rfl, rfl⟩)
  · exact Or.inr (Or.inr (Or.inl ⟨rfl, rfl⟩))
  · exact Or.inr (Or.inr (Or.inr ⟨rfl, rfl⟩))
  · cases hd

theorem exploreDirs_inv {w h : Int} (F : Nat)
    (rec : Grid → Rng → Int → Int → Except GenError (Grid × Rng))
    (hrec : ∀ (g : Grid) (r : Rng) (tx ty : Int),
      GenPre w h g (tx, ty) → unvisCount g < F →
      ∃ g' r', rec g r tx ty = .ok (g', r') ∧ GenInv w h g' ∧
        GridLe g g' ∧ visAt g' (tx, ty) ∧ unvisCount g' < unvisCount g)
    {x y : Int} :
    ∀ (ds : List (Int × Int)), (∀ d ∈ ds, d ∈ dirsInit) →
    ∀ (g : Grid) (r : Rng), GenInv w h g → visAt g (x, y) →
      unvisCount g < F →
      ∃ g' r', exploreDirs rec w h x y g r ds = .ok (g', r') ∧
        GenInv w h g' ∧ GridLe g g' ∧ unvisCount g' ≤ unvisCount g := by
  intro ds
  induction ds with
  | nil =>
    intro _ g r hinv _ _
    exact ⟨g, r, rfl, hinv, gridLe_refl g, le_refl _⟩
  | cons d rest ih =>
    intro hds g r hinv hvp hcnt
    have hdmem : d ∈ dirsInit := hds d (List.mem_cons_self d rest)
    have hrest : ∀ d' ∈ rest, d' ∈ dirsInit :=
      fun d' hd' => hds d' (List.mem_cons_of_mem d hd')
    have hxyin : isInsideGrid w h x y = true := hinv.vis_inB _ hvp
    rw [exploreDirs]
    by_cases hinn : isInsideGrid w h (x + d.1 * 2) (y + d.2 * 2) = true
    · rw [if_pos hinn, gridGet_ok hinv.wf hinn]
      by_cases hnvb : (cellAt g (x + d.1 * 2) (y + d.2 * 2)).visited = true
      · simp only [hnvb, if_true]
        exact ih hrest g r hinv hvp hcnt
      · rw [Bool.not_eq_true] at hnvb
        simp only [hnvb, Bool.false_eq_true, if_false]
        have htv : ¬visAt g (x + d.1 * 2, y + d.2 * 2) := by
          intro hvv
          have hvv' : (cellAt g (x + d.1 * 2) (y + d.2 * 2)).visited = true :=
            hvv
          rw [hnvb] at hvv'
          cases hvv'
        have hmid : isInsideGrid w h (x + d.1) (y + d.2) = true :=
          mid_inside hdmem hxyin hinn
        obtain ⟨g2, hset, hw2, hchar2, hcnt2⟩ :=
          gridSet_ok hinv.wf hmid ⟨false, (cellAt g (x + d.1) (y + d.2)).visited⟩
        have hu2 : unvisCount g2 = unvisCount g := by
          cases hmv : (cellAt g (x + d.1) (y + d.2)).visited <;>
            rw [hmv] at hcnt2 <;> simpa using hcnt2
        have hpre : GenPre w h g2 (x + d.1 * 2, y + d.2 * 2) :=
          @carveStep w h g g2 x y d.1 d.2 hinv hvp (dirs_cases hdmem)
            hinn htv hw2 hchar2
        obtain ⟨g3, r3, hrecEq, hinv3, hle3, hvis3, hcnt3⟩ :=
          hrec g2 r (x + d.1 * 2) (y + d.2 * 2) hpre (by omega)
        have hle2 : GridLe g g2 := gridLe_of_set hchar2 (fun hv => hv) rfl
        have hvp3 : visAt g3 (x, y) :=
          (hle3 x y).1 ((hle2 x y).1 hvp)
        obtain ⟨g', r', hexp, hinv', hle', hcnt'⟩ :=
          ih hrest g3 r3 hinv3 hvp3 (by omega)
        refine ⟨g', r', ?_, hinv', ?_, by omega⟩
        · rw [gridGet_ok hinv.wf hmid]
          dsimp only
          rw [hset]
          dsimp only
          rw [hrecEq]
          dsimp only
          exact hexp
        · exact gridLe_trans hle2 (gridLe_trans hle3 hle')
    · rw [if_neg hinn]
      exact ih hrest g r hinv hvp hcnt

theorem generateMazeRecursive_inv {w h : Int} :
    ∀ (fuel : Nat) (g : Grid) (r : Rng) (tx ty : Int),
      GenPre w h g (tx, ty) → unvisCount g < fuel →
      ∃ g' r', generateMazeRecursive w h fuel g r tx ty = .ok (g', r') ∧
        GenInv w h g' ∧ GridLe g g' ∧ visAt g' (tx, ty) ∧
        unvisCount g' < unvisCount g := by
  intro fuel
  induction fuel with
  | zero => intro g r tx ty _ hcnt; omega
  | succ f ih =>
    intro g r tx ty pre hcnt
    rw [generateMazeRecursive_succ]
    have htin : isInsideGrid w h tx ty = true := pre.t_inB
    obtain ⟨g1, hset, hw1, hchar1, hcnt1⟩ := gridSet_ok pre.wf htin ⟨false, true⟩
    obtain ⟨hinv1, hvt1⟩ := @markStep w h g g1 (tx, ty) pre hw1 hchar1
    have hnv : (cellAt g tx ty).visited = false := by
      have h0 := pre.t_unvis
      simp only [visAt, Bool.not_eq_true] at h0
      exact h0
    have hu1 : unvisCount g1 + 1 = unvisCount g := by
      rw [hnv] at hcnt1
      simpa using hcnt1
    have hds : ∀ d ∈ (shuffleDirs r).1, d ∈ dirsInit :=
      fun d hd => (shuffleDirs_perm r).mem_iff.mp hd
    obtain ⟨g', r', hexp, hinv', hle', hcnt'⟩ :=
      exploreDirs_inv f (generateMazeRecursive w h f) ih
        (shuffleDirs r).1 hds g1 (shuffleDirs r).2 hinv1 hvt1 (by omega)
    have hle1 : GridLe g g1 := gridLe_of_set hchar1 (fun _ => rfl) rfl
    refine ⟨g', r', ?_, hinv', gridLe_trans hle1 hle',
      (hle' tx ty).1 hvt1, by omega⟩
    rw [hset]
    dsimp only
    exact hexp

theorem pasAt_freshGrid (w h : Int) (c : ℤ × ℤ) : ¬pasAt (freshGrid w h) c := by
  intro hp
  have hp' : (cellAt (freshGrid w h) c.1 c.2).isWall = false := hp
  rw [cellAt_freshGrid] at hp'
  cases hp'

theorem visAt_freshGrid (w h : Int) (c : ℤ × ℤ) : ¬visAt (freshGrid w h) c := by
  intro hv
  have hv' : (cellAt (freshGrid w h) c.1 c.2).visited = true := hv
  rw [cellAt_freshGrid] at hv'
  cases hv'

theorem genPre_fresh {w h : Int} (hw2 : 2 ≤ w) (hh2 : 2 ≤ h) :
    GenPre w h (freshGrid w h) (1, 1) := by
  refine ⟨wf_freshGrid w h, ?_, ?_, ?_, ?_, ?_, ?_, ?_, Or.inl rfl, ?_,
    ⟨by decide, by decide⟩, visAt_freshGrid w h (1, 1)⟩
  · exact fun c hc => absurd hc (visAt_freshGrid w h c)
  · exact fun c hc => absurd hc (visAt_freshGrid w h c)
  · exact fun c hc => absurd hc (visAt_freshGrid w h c)
  · exact fun c hc => absurd hc (pasAt_freshGrid w h c)
  · intro v p hp
    cases p with
    | nil => exact SimpleGraph.Walk.IsCycle.not_of_nil hp
    | cons hadj p' => exact pasAt_freshGrid w h v hadj.2.1
  · exact fun c hc => absurd hc (pasAt_freshGrid w h c)
  · exact fun c c' h1 h2 => absurd h2 (pasAt_freshGrid w h c)
  · exact isInsideGrid_iff.2 (by omega)

theorem generateMaze_inv {w h : Int} (hw2 : 2 ≤ w) (hh2 : 2 ≤ h) (r : Rng) :
    ∃ g' r', generateMaze w h r = .ok (g', r') ∧ GenInv w h g' ∧
      visAt g' (1, 1) := by
  have hcnt : unvisCount (freshGrid w h) < genFuel w h := by
    rw [unvisCount_freshGrid, genFuel, Nat.mul_comm]
    omega
  obtain ⟨g', r', heq, hinv, _, hvis, _⟩ :=
    generateMazeRecursive_inv (genFuel w h) (freshGrid w h) r 1 1
      (genPre_fresh hw2 hh2) hcnt
  exact ⟨g', r', heq, hinv, hvis⟩

/-- The graph of passage cells of a grid under 4-directional adjacency:
the vertices are the passage cells themselves. -/
def mazeTreeGraph (g : Grid) : SimpleGraph {c : ℤ × ℤ // pasAt g c} where
  Adj u v := unitAdj u.val v.val
  symm := fun _ _ hadj => unitAdj_symm hadj
  loopless := fun u hadj => unitAdj_irrefl u.val hadj

theorem mazeTree_acyclic {g : Grid} (hac : (pasGraph g).IsAcyclic) :
    (mazeTreeGraph g).IsAcyclic := by
  intro v p hp
  let hhom : mazeTreeGraph g →g pasGraph g :=
    ⟨fun u => u.val, fun {a b} hab => ⟨hab, a.2, b.2⟩⟩
  have hf : Function.Injective (hhom : _ → _) := Subtype.val_injective
  exact hac _
    ((SimpleGraph.Walk.map_isCycle_iff_of_injective hf).2 hp)

theorem mazeTree_reachable {g : Grid} :
    ∀ {a b : ℤ × ℤ} (_ : (pasGraph g).Walk a b) (ha : pasAt g a)
      (hb : pasAt g b),
      (mazeTreeGraph g).Reachable ⟨a, ha⟩ ⟨b, hb⟩ := by
  intro a b p
  induction p with
  | nil =>
    intro ha hb
    exact SimpleGraph.Reachable.refl _
  | cons hadj p' ih =>
    intro ha hb
    have hc : pasAt g _ := hadj.2.2
    exact (SimpleGraph.Adj.reachable
      (show (mazeTreeGraph g).Adj ⟨_, ha⟩ ⟨_, hc⟩ from hadj.1)).trans
      (ih hc hb)

theorem mazeTree_isTree {w h : Int} {g : Grid} (hinv : GenInv w h g)
    (hstart : pasAt g (1, 1)) : (mazeTreeGraph g).IsTree := by
  refine ⟨?_, mazeTree_acyclic hinv.acyc⟩
  rw [SimpleGraph.connected_iff_exists_forall_reachable]
  refine ⟨⟨(1, 1), hstart⟩, fun v => ?_⟩
  obtain ⟨pv⟩ := hinv.conn v.val v.2
  exact mazeTree_reachable pv hstart v.2

/-- C1: for every maze produced by generation with `width ≥ 3` and
`height ≥ 3` and every sequence of random draws, the start `(1,1)` is a
passage, the carved passages form a tree (connected and acyclic), and
every sublattice cell reached by the two-step carving (i.e. every
visited cell) is connected to the start by exactly one simple passage
path. -/
theorem generated_maze_tree_unique_paths :
    ∀ (w h : Int), 3 ≤ w → 3 ≤ h → ∀ (r : Rng) (g : Grid) (r' : Rng),
      generateMaze w h r = .ok (g, r') →
      ∃ hstart : pasAt g (1, 1),
        (mazeTreeGraph g).IsTree ∧
        ∀ c : ℤ × ℤ, visAt g c → ∃ hc : pasAt g c,
          ∃! p : (mazeTreeGraph g).Walk ⟨(1, 1), hstart⟩ ⟨c, hc⟩,
            p.IsPath := by
  intro w h hw hh r g r' heq
  obtain ⟨g0, r0, heq0, hinv, hvis⟩ :=
    @generateMaze_inv w h (by omega) (by omega) r
  rw [heq] at heq0
  injection heq0 with hpair
  injection hpair with hg hr
  subst hg
  have hstart : pasAt g (1, 1) := hinv.vis_pas _ hvis
  refine ⟨hstart, mazeTree_isTree hinv hstart, ?_⟩
  intro c hc
  exact ⟨hinv.vis_pas c hc,
    (mazeTree_isTree hinv hstart).existsUnique_path _ _⟩

theorem generated_maze_tree_unique_paths_witness :
    ∃ (g : Grid) (r' : Rng), generateMaze 3 3 rng0 = .ok (g, r') ∧
      ∃ hstart : pasAt g (1, 1), (mazeTreeGraph g).IsTree := by
  refine ⟨_, _, rfl, ?_⟩
  obtain ⟨hs, htree, _⟩ := generated_maze_tree_unique_paths 3 3
    (by norm_num) (by norm_num) rng0 _ _ rfl
  exact ⟨hs, htree⟩
